import Mathlib

/-!
Verification of the ct-hulhu CT-log scraper core against its
natural-language specification.  The Go sources are shallowly embedded:
pure functions become Lean functions on `Nat`/`Int`/`List`, machine
integers wrap explicitly where the source relies on wrapping, and the
external collaborators (HTTP transport, base64, the standard x509
parser, `net.IP.String`) appear as oracle parameters or as abstract
record fields carrying their already-rendered results.
-/

namespace CtHulhu

/-! ## Shared data model (spec section 3, reconstructed field-for-field
from the uses in `internal/ctlog`, `internal/certparser`,
`internal/output` and `internal/runner`) -/

/-- A raw `get-entries` element: base64 `leaf_input` and `extra_data`. -/
structure RawEntry where
  leafInput : String
  extraData : String
deriving DecidableEq, Repr

/-- The slice of an x509 certificate consumed by `buildResult`.
`ipStrings` holds the `net.IP.String()` renderings of `IPAddresses` and
`serialHex` the `%x` rendering of a non-nil `SerialNumber`; both
renderings are done by the Go standard library, outside this repository,
so they enter the model already in string form.  Times are UnixMilli. -/
structure Certificate where
  subjectCN : String
  dnsNames : List String
  ipStrings : List String
  emailAddresses : List String
  issuerCN : String
  issuerOrg : List String
  serialHex : Option String
  notBefore : Int
  notAfter : Int
deriving DecidableEq, Repr

/-- Internal carrier between the Merkle-leaf decoder and `buildResult`. -/
structure CertInfo where
  cert : Certificate
  isPrecert : Bool
  index : Int
  timestamp : Int
deriving DecidableEq, Repr

/-- The public record emitted by the parser (spec section 3). -/
structure CertResult where
  index : Int
  timestamp : Int
  domains : List String
  ips : List String
  emails : List String
  commonName : String
  issuer : String
  notBefore : Int
  notAfter : Int
  isPrecert : Bool
  logURL : String
  serial : String
deriving DecidableEq, Repr

/-- Persisted per-log progress record (spec section 3). -/
structure ScrapeProgress where
  logURL : String
  treeSize : Int
  lastIndex : Int
  entriesDone : Int
  lastUpdated : Int
deriving DecidableEq, Repr

/-- ASCII lowercasing of one character, the A-Z fold used by
`strings.ToLower` on the ASCII inputs this code handles. -/
def lowerChar (c : Char) : Char :=
  if 'A' ≤ c ∧ c ≤ 'Z' then Char.ofNat (c.toNat + 32) else c

/-- ASCII lowercasing of a string (`strings.ToLower` on ASCII data). -/
def lowerString (s : String) : String :=
  String.mk (s.data.map lowerChar)

/-! ## C1 - CT client retry backoff (`internal/ctlog/client.go`,
`doRequestWithRetry`) -/

/-- Sleep, in whole seconds, performed before retry attempt `attempt`
(`attempt ≥ 1`): `time.Duration(1<<uint(attempt-1)) * time.Second`. -/
def backoffSeconds (attempt : Nat) : Nat := 2 ^ (attempt - 1)

/-- The retry loop of `doRequestWithRetry`: attempts run at indices
`attempt, attempt+1, …` while `fuel` lasts (`fuel` = number of attempts
still permitted); before every attempt with positive index the loop
sleeps `backoffSeconds`.  `succeeds` abstracts the HTTP round-trip
(`doRequest` returning without error).  Returns the index of the
successful attempt (if any) and the list of sleeps performed. -/
def retryLoop (succeeds : Nat → Bool) (attempt : Nat) : Nat → Option Nat × List Nat
  | 0 => (none, [])
  | fuel + 1 =>
    let sleeps := if 0 < attempt then [backoffSeconds attempt] else []
    if succeeds attempt then (some attempt, sleeps)
    else
      let rest := retryLoop succeeds (attempt + 1) fuel
      (rest.1, sleeps ++ rest.2)

/-- `doRequestWithRetry` with `retries` configured runs attempts
`0 … retries`, i.e. `retries + 1` tries. -/
def doRequestWithRetry (retries : Nat) (succeeds : Nat → Bool) :
    Option Nat × List Nat :=
  retryLoop succeeds 0 (retries + 1)

/-! ## C4 - resume advance (`internal/runner/runner.go`, `scrapeLog`) -/

/-- The `--resume` start adjustment in `scrapeLog`: with a loaded
progress record the code advances only on `progress.LastIndex > start`
(strict), to `LastIndex + 1`. -/
def resumeAdjust (start : Int) (progress : Option ScrapeProgress) : Int :=
  match progress with
  | none => start
  | some p => if p.lastIndex > start then p.lastIndex + 1 else start

/-! ## C5 - index-window computation (`internal/runner/runner.go`,
`calculateRange`) -/

/-- The option fields consumed by `calculateRange`. -/
structure RangeOpts where
  fromEnd : Bool
  start : Int
  count : Int
deriving DecidableEq, Repr

/-- `calculateRange` translated clause-for-clause from the source:
Go zero-initialises `start`/`end` and overwrites them per branch. -/
def calculateRange (o : RangeOpts) (treeSize : Int) : Int × Int :=
  if o.fromEnd then
    let e := treeSize
    let s :=
      if 0 < o.count then max (e - o.count) 0
      else if 0 ≤ o.start then o.start
      else max 0 (treeSize - 10000)
    (s, e)
  else
    let s := if 0 ≤ o.start then o.start else 0
    let e := if 0 < o.count then min (s + o.count) treeSize else treeSize
    (s, e)

/-- The range semantics written in the specification (section 6),
rendered rule-for-rule for the refinement comparison of C5:
`start = S ≥ 0, count = N` gives `[S, min(S+N, tree_size))`;
`start = -1, count = N, from_end = false` gives `[0, min(N, tree_size))`
with `N = 0` meaning the whole tree; `from_end = true, count = N > 0`
gives `[max(0, tree_size-N), tree_size)`; `from_end = true, count = 0,
start = -1` gives the last 10000; `from_end = true, count = 0,
start = S ≥ 0` gives `[S, tree_size)`. -/
def specRange (o : RangeOpts) (treeSize : Int) : Int × Int :=
  if o.fromEnd then
    if 0 < o.count then (max 0 (treeSize - o.count), treeSize)
    else if o.start = -1 then (max 0 (treeSize - 10000), treeSize)
    else (o.start, treeSize)
  else
    if 0 ≤ o.start then (o.start, min (o.start + o.count) treeSize)
    else if o.count = 0 then (0, treeSize)
    else (0, min o.count treeSize)

/-- The spec's range semantics amended at the single point the code
departs from them: with `from_end = false`, `start = S ≥ 0` and
`count = 0` the window is `[S, tree_size)` (count 0 means "all"),
not `[S, min(S, tree_size))`. -/
def specRangeAmended (o : RangeOpts) (treeSize : Int) : Int × Int :=
  if o.fromEnd then
    if 0 < o.count then (max 0 (treeSize - o.count), treeSize)
    else if o.start = -1 then (max 0 (treeSize - 10000), treeSize)
    else (o.start, treeSize)
  else
    if 0 ≤ o.start then
      (o.start, if o.count = 0 then treeSize else min (o.start + o.count) treeSize)
    else if o.count = 0 then (0, treeSize)
    else (0, min o.count treeSize)

/-! ## C3 - result construction (`internal/certparser/parser.go`,
`buildResult`) -/

/-- Order-preserving set insertion, modelling insertion into the
`domainSet` map (iteration order of a Go map is unspecified; a canonical
insertion order is fixed here, which is immaterial to the set-valued
claims). -/
def insertUniq (l : List String) (x : String) : List String :=
  if x ∈ l then l else l ++ [x]

/-- `buildResult`: domains are the lowercased subject CN (when nonempty)
unioned with the lowercased DNS SANs; `ips` and `emails` are copied
verbatim from the certificate; issuer prefers the issuer CN with the
first issuer organisation as fallback; serial is the `%x` rendering or
the empty string. -/
def buildResult (info : CertInfo) (logURL : String) : CertResult :=
  let cert := info.cert
  let seed : List String :=
    if cert.subjectCN ≠ "" then [lowerString cert.subjectCN] else []
  let domains := (cert.dnsNames.map lowerString).foldl insertUniq seed
  let issuer :=
    if cert.issuerCN = "" then
      match cert.issuerOrg with
      | o :: _ => o
      | [] => ""
    else cert.issuerCN
  let serial :=
    match cert.serialHex with
    | some sh => sh
    | none => ""
  { index := info.index
    timestamp := info.timestamp
    domains := domains
    ips := cert.ipStrings
    emails := cert.emailAddresses
    commonName := cert.subjectCN
    issuer := issuer
    notBefore := cert.notBefore
    notAfter := cert.notAfter
    isPrecert := info.isPrecert
    logURL := logURL
    serial := serial }

/-! ## C2 - output-writer deduplication (`internal/output/output.go`,
`writeUnique` / `writeJSON`).  The sanitiser applied to the printed line
is passed as a parameter `san`; it never touches the dedup key. -/

/-- `writeUnique`: for each item in order, the key `pre ++ item` is
looked up in the `seen` table; present keys are skipped, absent keys are
inserted unconditionally (the source has no capacity check) and the
(optionally sanitised) item is printed.  Returns the updated table and
the printed lines. -/
def writeUnique (san : String → String) (pre : String) :
    List String → List String → List String × List String
  | [], seen => (seen, [])
  | item :: rest, seen =>
    let key := pre ++ item
    if key ∈ seen then writeUnique san pre rest seen
    else
      let out := writeUnique san pre rest (seen ++ [key])
      (out.1, san item :: out.2)

/-- Helper: with pairwise-distinct fresh keys, every item of a call
inserts its key, so the table grows by exactly the item count. -/
theorem writeUnique_seen_length (san : String → String) (pre : String)
    (items : List String) (seen : List String)
    (hnodup : (items.map (fun it => pre ++ it)).Nodup)
    (hfresh : ∀ it ∈ items, (pre ++ it) ∉ seen) :
    ((writeUnique san pre items seen).1).length = seen.length + items.length := by
  induction items generalizing seen with
  | nil => simp [writeUnique]
  | cons it rest ih =>
    have hkey : (pre ++ it) ∉ seen := hfresh it (by simp)
    simp only [List.map_cons, List.nodup_cons, List.mem_map] at hnodup
    have hfresh2 : ∀ it2 ∈ rest, (pre ++ it2) ∉ seen ++ [pre ++ it] := by
      intro it2 hit2
      simp only [List.mem_append, List.mem_singleton, not_or]
      exact ⟨hfresh it2 (List.mem_cons_of_mem _ hit2),
        fun heq => hnodup.1 ⟨it2, hit2, heq⟩⟩
    simp only [writeUnique, if_neg hkey]
    rw [ih (seen ++ [pre ++ it]) hnodup.2 hfresh2]
    simp only [List.length_append, List.length_cons, List.length_nil]
    omega

/-- A family of pairwise-distinct strings, used to feed the table. -/
def padKey (i : Nat) : String := String.mk (List.replicate i 'a')

theorem padKey_length (i : Nat) : (padKey i).length = i := by
  simp [padKey, String.length]

/-- Helper: feeding `n` pairwise-distinct domains into an empty table
leaves the table with exactly `n` keys, for every `n`. -/
theorem writeUnique_range_growth (n : Nat) :
    ((writeUnique id "d:" ((List.range n).map padKey) []).1).length = n := by
  have hinj : Function.Injective (fun i : Nat => "d:" ++ padKey i) := by
    intro i j hij
    have hlen := congrArg String.length hij
    simpa [String.length_append, padKey_length] using hlen
  have hnodup : ((((List.range n).map padKey)).map (fun it => "d:" ++ it)).Nodup := by
    rw [List.map_map]
    exact (List.nodup_range n).map hinj
  rw [writeUnique_seen_length id "d:" ((List.range n).map padKey) [] hnodup
    (by simp)]
  simp

/-! ## C8 - terminal sanitiser (`internal/output/output.go`, `Sanitize`).
Strings are modelled as lists of byte values.  Byte constants: ESC = 27,
BEL = 7, DEL = 127, CSI opener 91 = 0x5b, OSC opener 93 = 0x5d, DCS/SOS/
PM/APC openers 80/88/94/95, ST second byte 92 = 0x5c, parameter range
32..63 = 0x20..0x3f. -/

/-- CSI skipping after `ESC [`: consume parameter bytes in 32..63, then
one final byte if any remains. -/
def csiBody : List Nat → List Nat
  | [] => []
  | a :: rest => if 32 ≤ a ∧ a ≤ 63 then csiBody rest else rest

/-- The OSC scan loop after `ESC ]`: stop in front of a BEL, or consume
a two-byte ST (`ESC \`) and stop, or skip any other byte. -/
def oscBody : List Nat → List Nat
  | [] => []
  | a :: rest =>
    if a = 7 then a :: rest
    else if a = 27 ∧ rest.head? = some 92 then rest.tail
    else oscBody rest

/-- The trailing `if s[i] == 0x07 then i++` after the OSC loop. -/
def oscTrail : List Nat → List Nat
  | 7 :: rest => rest
  | l => l

/-- Full OSC skipping after `ESC ]`. -/
def skipOSC (l : List Nat) : List Nat := oscTrail (oscBody l)

/-- DCS/SOS/PM/APC skipping after `ESC P|X|^|_`: consume up to and
including a two-byte ST, or the rest of the string. -/
def stBody : List Nat → List Nat
  | [] => []
  | a :: rest => if a = 27 ∧ rest.head? = some 92 then rest.tail else stBody rest

theorem csiBody_suffix (l : List Nat) : csiBody l <:+ l := by
  induction l with
  | nil => exact List.suffix_refl []
  | cons a rest ih =>
    simp only [csiBody]
    split_ifs
    · exact ih.trans (List.suffix_cons a rest)
    · exact List.suffix_cons a rest

theorem oscBody_suffix (l : List Nat) : oscBody l <:+ l := by
  induction l with
  | nil => exact List.suffix_refl []
  | cons a rest ih =>
    simp only [oscBody]
    split_ifs
    · exact List.suffix_refl _
    · exact (List.tail_suffix rest).trans (List.suffix_cons a rest)
    · exact ih.trans (List.suffix_cons a rest)

theorem oscTrail_suffix (l : List Nat) : oscTrail l <:+ l := by
  unfold oscTrail
  split
  · exact List.suffix_cons 7 _
  · exact List.suffix_refl _

theorem skipOSC_suffix (l : List Nat) : skipOSC l <:+ l :=
  (oscTrail_suffix (oscBody l)).trans (oscBody_suffix l)

theorem stBody_suffix (l : List Nat) : stBody l <:+ l := by
  induction l with
  | nil => exact List.suffix_refl []
  | cons a rest ih =>
    simp only [stBody]
    split_ifs
    · exact (List.tail_suffix rest).trans (List.suffix_cons a rest)
    · exact ih.trans (List.suffix_cons a rest)

/-- `Sanitize`, byte for byte from the source: a recognised escape
sequence is consumed whole, a bare ESC consumes only itself, C0 bytes
and DEL are dropped, everything else is copied. -/
def sanitize : List Nat → List Nat
  | [] => []
  | a :: rest =>
    if a = 27 then
      match rest with
      | [] => []
      | b :: r2 =>
        if b = 91 then sanitize (csiBody r2)
        else if b = 93 then sanitize (skipOSC r2)
        else if b = 80 ∨ b = 88 ∨ b = 94 ∨ b = 95 then sanitize (stBody r2)
        else sanitize (b :: r2)
    else if a < 32 then sanitize rest
    else if a = 127 then sanitize rest
    else a :: sanitize rest
  termination_by l => l.length
  decreasing_by
  all_goals simp only [List.length_cons]
  all_goals try omega
  · have := (csiBody_suffix rest).length_le
    omega
  · have := (skipOSC_suffix rest).length_le
    omega
  · have := (stBody_suffix rest).length_le
    omega

/-- Helper: every byte of the sanitiser's output is printable-range
(`≥ 0x20`, not DEL), and the output is an order-preserving selection of
the input's bytes. -/
theorem sanitize_clean_sublist (l : List Nat) :
    (∀ b ∈ sanitize l, 32 ≤ b ∧ b ≠ 127) ∧ List.Sublist (sanitize l) l := by
  induction l using sanitize.induct with
  | case1 => simp [sanitize]
  | case2 => simp [sanitize]
  | case3 rest ih =>
    have he : sanitize (27 :: 91 :: rest) = sanitize (csiBody rest) := by
      simp [sanitize]
    rw [he]
    exact ⟨ih.1, ((ih.2.trans (csiBody_suffix rest).sublist).cons 91).cons 27⟩
  | case4 rest h ih =>
    have he : sanitize (27 :: 93 :: rest) = sanitize (skipOSC rest) := by
      simp [sanitize]
    rw [he]
    exact ⟨ih.1, ((ih.2.trans (skipOSC_suffix rest).sublist).cons 93).cons 27⟩
  | case5 a rest h1 h2 h3 ih =>
    have he : sanitize (27 :: a :: rest) = sanitize (stBody rest) := by
      simp [sanitize, h1, h2, h3]
    rw [he]
    exact ⟨ih.1, ((ih.2.trans (stBody_suffix rest).sublist).cons a).cons 27⟩
  | case6 a rest h1 h2 h3 ih =>
    have he : sanitize (27 :: a :: rest) = sanitize (a :: rest) := by
      simp [sanitize, h1, h2, h3]
    rw [he]
    exact ⟨ih.1, ih.2.cons 27⟩
  | case7 a rest h1 h2 ih =>
    have he : sanitize (a :: rest) = sanitize rest := by
      rw [sanitize.eq_def]
      simp [h1, h2]
    rw [he]
    exact ⟨ih.1, ih.2.cons a⟩
  | case8 rest h1 h2 ih =>
    have he : sanitize (127 :: rest) = sanitize rest := by
      rw [sanitize.eq_def]
      simp
    rw [he]
    exact ⟨ih.1, ih.2.cons 127⟩
  | case9 a rest h1 h2 h3 ih =>
    have he : sanitize (a :: rest) = a :: sanitize rest := by
      rw [sanitize.eq_def]
      simp [h1, h2, h3]
    rw [he]
    constructor
    · intro b hb
      rcases List.mem_cons.mp hb with hb | hb
      · subst hb
        exact ⟨by omega, h3⟩
      · exact ih.1 b hb
    · exact ih.2.cons₂ a

/-- Helper: on a string whose bytes are all printable-range the
sanitiser is the identity. -/
theorem sanitize_preserves_clean (l : List Nat)
    (hcl : ∀ b ∈ l, 32 ≤ b ∧ b ≠ 127) : sanitize l = l := by
  induction l with
  | nil => simp [sanitize]
  | cons a rest ih =>
    have ha := hcl a (by simp)
    have h27 : ¬a = 27 := by omega
    have hlt : ¬a < 32 := by omega
    have he : sanitize (a :: rest) = a :: sanitize rest := by
      rw [sanitize.eq_def]
      simp [h27, hlt, ha.2]
    rw [he, ih (fun b hb => hcl b (List.mem_cons_of_mem a hb))]

/-- Helper: on an ESC-free string the sanitiser keeps exactly the
printable-range bytes, in order. -/
theorem sanitize_esc_free (l : List Nat) (h : 27 ∉ l) :
    sanitize l = l.filter (fun b => decide (32 ≤ b ∧ b ≠ 127)) := by
  induction l with
  | nil => simp [sanitize]
  | cons a rest ih =>
    have ha : ¬a = 27 := fun e => h (e ▸ List.mem_cons_self a rest)
    have hrest : 27 ∉ rest := fun hr => h (List.mem_cons_of_mem a hr)
    by_cases hlt : a < 32
    · have hp : ¬(32 ≤ a ∧ a ≠ 127) := by omega
      have he : sanitize (a :: rest) = sanitize rest := by
        rw [sanitize.eq_def]
        simp [ha, hlt]
      rw [he, ih hrest, List.filter_cons]
      simp [hp]
    · by_cases h127 : a = 127
      · subst h127
        have he : sanitize (127 :: rest) = sanitize rest := by
          rw [sanitize.eq_def]
          simp
        rw [he, ih hrest, List.filter_cons]
        simp
      · have hp : 32 ≤ a ∧ a ≠ 127 := by omega
        have he : sanitize (a :: rest) = a :: sanitize rest := by
          rw [sanitize.eq_def]
          simp [ha, hlt, h127]
        rw [he, ih hrest, List.filter_cons]
        simp [hp]

/-! ## C8 spec side: the sanitisation prescribed by the spec.
The skip functions of the source decompose their input into the
escape-sequence shapes named by the spec; `SanSpec` below states those
shapes declaratively. -/

theorem not_infix_pair_nil (x y : Nat) :
    ¬ List.IsInfix [x, y] ([] : List Nat) := by
  intro h
  have := h.length_le
  simp at this

theorem not_infix_pair_cons (x y a : Nat) (body : List Nat)
    (h1 : ¬(a = x ∧ body.head? = some y))
    (h2 : ¬ List.IsInfix [x, y] body) :
    ¬ List.IsInfix [x, y] (a :: body) := by
  intro h
  rcases List.infix_cons_iff.mp h with hpre | hinf
  · rcases List.cons_prefix_cons.mp hpre with ⟨hxa, hy⟩
    cases body with
    | nil =>
      have := hy.length_le
      simp at this
    | cons b t =>
      rcases List.cons_prefix_cons.mp hy with ⟨hyb, -⟩
      exact h1 ⟨hxa.symm, by simp [hyb.symm]⟩
  · exact h2 hinf

/-- `csiBody` consumes a run of parameter bytes (32..63) and one final
byte, or the whole remainder when no final byte exists. -/
theorem csiBody_decomp (l : List Nat) :
    (∃ params final rest, l = params ++ final :: rest ∧
      (∀ x ∈ params, 32 ≤ x ∧ x ≤ 63) ∧ ¬(32 ≤ final ∧ final ≤ 63) ∧
      csiBody l = rest) ∨
    ((∀ x ∈ l, 32 ≤ x ∧ x ≤ 63) ∧ csiBody l = []) := by
  induction l with
  | nil => exact Or.inr ⟨by simp, rfl⟩
  | cons a t ih =>
    by_cases ha : 32 ≤ a ∧ a ≤ 63
    · have he : csiBody (a :: t) = csiBody t := by simp [csiBody, ha]
      rcases ih with ⟨params, final, rest, heq, hp, hf, hcs⟩ | ⟨hall, hcs⟩
      · refine Or.inl ⟨a :: params, final, rest, by rw [heq]; rfl, ?_, hf,
          by rw [he, hcs]⟩
        intro x hx
        rcases List.mem_cons.mp hx with h | h
        · subst h; exact ha
        · exact hp x h
      · refine Or.inr ⟨?_, by rw [he, hcs]⟩
        intro x hx
        rcases List.mem_cons.mp hx with h | h
        · subst h; exact ha
        · exact hall x h
    · have he : csiBody (a :: t) = t := by simp [csiBody, ha]
      exact Or.inl ⟨[], a, t, rfl, by simp, ha, he⟩

/-- The OSC scan consumes a terminator-free body up to a BEL, up to a
two-byte ST, or to the end of the input. -/
theorem oscBody_decomp (l : List Nat) :
    (∃ body rest, l = body ++ 7 :: rest ∧ 7 ∉ body ∧
      ¬ List.IsInfix [27, 92] body ∧ oscBody l = 7 :: rest) ∨
    (∃ body rest, l = body ++ 27 :: 92 :: rest ∧ 7 ∉ body ∧
      ¬ List.IsInfix [27, 92] body ∧ oscBody l = rest) ∨
    (7 ∉ l ∧ ¬ List.IsInfix [27, 92] l ∧ oscBody l = []) := by
  induction l with
  | nil => exact Or.inr (Or.inr ⟨by simp, not_infix_pair_nil 27 92, rfl⟩)
  | cons a t ih =>
    by_cases ha7 : a = 7
    · subst ha7
      have he : oscBody (7 :: t) = 7 :: t := by simp [oscBody]
      exact Or.inl ⟨[], t, rfl, by simp, not_infix_pair_nil 27 92, he⟩
    · by_cases hast : a = 27 ∧ t.head? = some 92
      · obtain ⟨ha27, hhd⟩ := hast
        subst ha27
        cases t with
        | nil => simp at hhd
        | cons b t2 =>
          have hb : b = 92 := by simpa using hhd
          subst hb
          have he : oscBody (27 :: 92 :: t2) = t2 := by simp [oscBody]
          exact Or.inr (Or.inl ⟨[], t2, rfl, by simp,
            not_infix_pair_nil 27 92, he⟩)
      · have he : oscBody (a :: t) = oscBody t := by
          simp [oscBody, ha7, hast]
        rcases ih with ⟨body, rest, heq, h7, hst, hob⟩ |
          ⟨body, rest, heq, h7, hst, hob⟩ | ⟨h7, hst, hob⟩
        · refine Or.inl ⟨a :: body, rest, by rw [heq]; rfl, ?_, ?_,
            by rw [he, hob]⟩
          · intro hmem
            rcases List.mem_cons.mp hmem with h | h
            · exact ha7 h.symm
            · exact h7 h
          · refine not_infix_pair_cons _ _ _ _ ?_ hst
            rintro ⟨ha27, hbh⟩
            refine hast ⟨ha27, ?_⟩
            cases body with
            | nil => simp at hbh
            | cons b bt => rw [heq]; simpa using hbh
        · refine Or.inr (Or.inl ⟨a :: body, rest, by rw [heq]; rfl, ?_, ?_,
            by rw [he, hob]⟩)
          · intro hmem
            rcases List.mem_cons.mp hmem with h | h
            · exact ha7 h.symm
            · exact h7 h
          · refine not_infix_pair_cons _ _ _ _ ?_ hst
            rintro ⟨ha27, hbh⟩
            refine hast ⟨ha27, ?_⟩
            cases body with
            | nil => simp at hbh
            | cons b bt => rw [heq]; simpa using hbh
        · refine Or.inr (Or.inr ⟨?_, ?_, by rw [he, hob]⟩)
          · intro hmem
            rcases List.mem_cons.mp hmem with h | h
            · exact ha7 h.symm
            · exact h7 h
          · exact not_infix_pair_cons _ _ _ _ hast hst

/-- The ST scan consumes an ST-free body up to a two-byte ST, or to
the end of the input. -/
theorem stBody_decomp (l : List Nat) :
    (∃ body rest, l = body ++ 27 :: 92 :: rest ∧
      ¬ List.IsInfix [27, 92] body ∧ stBody l = rest) ∨
    (¬ List.IsInfix [27, 92] l ∧ stBody l = []) := by
  induction l with
  | nil => exact Or.inr ⟨not_infix_pair_nil 27 92, rfl⟩
  | cons a t ih =>
    by_cases hast : a = 27 ∧ t.head? = some 92
    · obtain ⟨ha27, hhd⟩ := hast
      subst ha27
      cases t with
      | nil => simp at hhd
      | cons b t2 =>
        have hb : b = 92 := by simpa using hhd
        subst hb
        exact Or.inl ⟨[], t2, rfl, not_infix_pair_nil 27 92,
          by simp [stBody]⟩
    · have he : stBody (a :: t) = stBody t := by simp [stBody, hast]
      rcases ih with ⟨body, rest, heq, hst, hsb⟩ | ⟨hst, hsb⟩
      · refine Or.inl ⟨a :: body, rest, by rw [heq]; rfl, ?_,
          by rw [he, hsb]⟩
        refine not_infix_pair_cons _ _ _ _ ?_ hst
        rintro ⟨ha27, hbh⟩
        refine hast ⟨ha27, ?_⟩
        cases body with
        | nil => simp at hbh
        | cons b bt => rw [heq]; simpa using hbh
      · exact Or.inr ⟨not_infix_pair_cons _ _ _ _ hast hst,
          by rw [he, hsb]⟩

theorem oscTrail_of_ne (c : Nat) (r3 : List Nat) (hc : c ≠ 7) :
    oscTrail (c :: r3) = c :: r3 := by
  unfold oscTrail
  split
  · next heq =>
    exact absurd (List.cons.inj heq).1 hc
  · rfl

/-- Modelled from the spec (section 4.4): the sanitisation relation.
`SanSpec input output` holds when `output` arises from `input` by the
spec's rules, applied left to right: a byte ≥ 0x20 other than DEL is
emitted; a C0 control byte or DEL is dropped; a CSI sequence
(`ESC [ params final`, with a trailing parameter run permitted at end
of input), an OSC sequence (`ESC ] body` closed by BEL, by the two-byte
ST `ESC \`, or by the end of the input), a DCS/SOS/PM/APC sequence
(`ESC P|X|^|_ body` closed by ST or the end of the input), or a bare
ESC (no recognised continuation, or at end of input) is discarded
whole.  The side conditions pin each body to the first terminator. -/
inductive SanSpec : List Nat → List Nat → Prop
  | nil : SanSpec [] []
  | emit {rest out : List Nat} (b : Nat) (hge : 32 ≤ b) (hne : b ≠ 127)
      (h : SanSpec rest out) : SanSpec (b :: rest) (b :: out)
  | ctrl {rest out : List Nat} (b : Nat) (hc : b < 32 ∨ b = 127)
      (hesc : b ≠ 27) (h : SanSpec rest out) : SanSpec (b :: rest) out
  | csi {params rest out : List Nat} (final : Nat)
      (hp : ∀ x ∈ params, 32 ≤ x ∧ x ≤ 63)
      (hf : ¬(32 ≤ final ∧ final ≤ 63)) (h : SanSpec rest out) :
      SanSpec (27 :: 91 :: (params ++ final :: rest)) out
  | csiEnd {params : List Nat} (hp : ∀ x ∈ params, 32 ≤ x ∧ x ≤ 63) :
      SanSpec (27 :: 91 :: params) []
  | oscBel {body rest out : List Nat} (h7 : 7 ∉ body)
      (hst : ¬ List.IsInfix [27, 92] body) (h : SanSpec rest out) :
      SanSpec (27 :: 93 :: (body ++ 7 :: rest)) out
  | oscSt {body rest out : List Nat} (h7 : 7 ∉ body)
      (hst : ¬ List.IsInfix [27, 92] body) (h : SanSpec rest out) :
      SanSpec (27 :: 93 :: (body ++ 27 :: 92 :: rest)) out
  | oscEnd {body : List Nat} (h7 : 7 ∉ body)
      (hst : ¬ List.IsInfix [27, 92] body) : SanSpec (27 :: 93 :: body) []
  | stSeq {body rest out : List Nat} (op : Nat)
      (hop : op = 80 ∨ op = 88 ∨ op = 94 ∨ op = 95)
      (hst : ¬ List.IsInfix [27, 92] body) (h : SanSpec rest out) :
      SanSpec (27 :: op :: (body ++ 27 :: 92 :: rest)) out
  | stEnd {body : List Nat} (op : Nat)
      (hop : op = 80 ∨ op = 88 ∨ op = 94 ∨ op = 95)
      (hst : ¬ List.IsInfix [27, 92] body) : SanSpec (27 :: op :: body) []
  | escBare {rest out : List Nat} (b : Nat) (h91 : b ≠ 91) (h93 : b ≠ 93)
      (hop : ¬(b = 80 ∨ b = 88 ∨ b = 94 ∨ b = 95))
      (h : SanSpec (b :: rest) out) : SanSpec (27 :: b :: rest) out
  | escEnd : SanSpec [27] []

/-- For every input - escape sequences included - the code's output is
a spec-conformant sanitisation: escape sequences are consumed whole and
every printable byte outside them survives, in order. -/
theorem sanSpec_sanitize (l : List Nat) : SanSpec l (sanitize l) := by
  induction l using sanitize.induct with
  | case1 =>
    rw [show sanitize [] = [] from by simp [sanitize]]
    exact SanSpec.nil
  | case2 =>
    rw [show sanitize [27] = [] from by simp [sanitize]]
    exact SanSpec.escEnd
  | case3 rest ih =>
    have he : sanitize (27 :: 91 :: rest) = sanitize (csiBody rest) := by
      simp [sanitize]
    rw [he]
    rcases csiBody_decomp rest with ⟨params, final, r2, heq, hp, hf, hcs⟩ |
      ⟨hall, hcs⟩
    · rw [hcs] at ih ⊢
      rw [heq]
      exact SanSpec.csi final hp hf ih
    · rw [hcs, show sanitize ([] : List Nat) = [] from by simp [sanitize]]
      exact SanSpec.csiEnd hall
  | case4 rest h ih =>
    have he : sanitize (27 :: 93 :: rest) = sanitize (skipOSC rest) := by
      simp [sanitize]
    rw [he]
    rcases oscBody_decomp rest with ⟨body, r2, heq, h7, hst, hob⟩ |
      ⟨body, r2, heq, h7, hst, hob⟩ | ⟨h7, hst, hob⟩
    · have hsk : skipOSC rest = r2 := by
        unfold skipOSC
        rw [hob]
        rfl
      rw [hsk] at ih ⊢
      rw [heq]
      exact SanSpec.oscBel h7 hst ih
    · have hsk : skipOSC rest = oscTrail r2 := by
        unfold skipOSC
        rw [hob]
      cases r2 with
      | nil =>
        rw [hsk, show oscTrail ([] : List Nat) = [] from rfl] at ih ⊢
        rw [heq]
        exact SanSpec.oscSt h7 hst ih
      | cons c r3 =>
        by_cases hc : c = 7
        · subst hc
          rw [hsk, show oscTrail (7 :: r3) = r3 from rfl] at ih ⊢
          rw [heq]
          exact SanSpec.oscSt h7 hst
            (SanSpec.ctrl 7 (Or.inl (by omega)) (by omega) ih)
        · rw [hsk, oscTrail_of_ne c r3 hc] at ih ⊢
          rw [heq]
          exact SanSpec.oscSt h7 hst ih
    · have hsk : skipOSC rest = [] := by
        unfold skipOSC
        rw [hob]
        rfl
      rw [hsk, show sanitize ([] : List Nat) = [] from by simp [sanitize]]
      exact SanSpec.oscEnd h7 hst
  | case5 a rest h1 h2 h3 ih =>
    have he : sanitize (27 :: a :: rest) = sanitize (stBody rest) := by
      simp [sanitize, h1, h2, h3]
    rw [he]
    rcases stBody_decomp rest with ⟨body, r2, heq, hst, hsb⟩ | ⟨hst, hsb⟩
    · rw [hsb] at ih ⊢
      rw [heq]
      exact SanSpec.stSeq a h3 hst ih
    · rw [hsb, show sanitize ([] : List Nat) = [] from by simp [sanitize]]
      exact SanSpec.stEnd a h3 hst
  | case6 a rest h1 h2 h3 ih =>
    have he : sanitize (27 :: a :: rest) = sanitize (a :: rest) := by
      simp [sanitize, h1, h2, h3]
    rw [he]
    exact SanSpec.escBare a h1 h2 h3 ih
  | case7 a rest h1 h2 ih =>
    have he : sanitize (a :: rest) = sanitize rest := by
      rw [sanitize.eq_def]
      simp [h1, h2]
    rw [he]
    exact SanSpec.ctrl a (Or.inl h2) h1 ih
  | case8 rest h1 h2 ih =>
    have he : sanitize (127 :: rest) = sanitize rest := by
      rw [sanitize.eq_def]
      simp
    rw [he]
    exact SanSpec.ctrl 127 (Or.inr rfl) (by omega) ih
  | case9 a rest h1 h2 h3 ih =>
    have he : sanitize (a :: rest) = a :: sanitize rest := by
      rw [sanitize.eq_def]
      simp [h1, h2, h3]
    rw [he]
    exact SanSpec.emit a (by omega) h3 ih

/-! ## C9 / C10 - worker fetch loop (`ctlog` worker, `fetchWithRetry`).
The CT client's `GetRawEntries` (HTTP with its own retries) is
abstracted as an oracle `fetch : position → Option (List RawEntry)`;
`none` is a fetch that failed after the client's retries.  Cancellation
is not modelled (the claims concern the uncancelled runs). -/

/-- The accounting a single `fetchWithRetry` run performs: batches sent
to the results channel, and the additions to the pool's dropped / error
/ success counters. -/
structure FetchOutcome where
  batches : List (Int × List RawEntry)
  dropped : Int
  errors : Nat
  successes : Nat
deriving DecidableEq, Repr

/-- `fetchWithRetry` for the work item `[S, itemEnd]`, starting at
`currentStart = S`: loop while `currentStart ≤ item.end`; a failed
fetch drops `item.end - currentStart + 1` entries, counts one error and
returns; a fetch of zero entries counts one success and returns; a
fetch of `k > 0` entries counts one success, emits the batch
`(currentStart, entries)` and continues at `currentStart + k`. -/
def fetchWithRetry (fetch : Int → Option (List RawEntry)) (itemEnd : Int) :
    Int → FetchOutcome
  | s =>
    if _h : itemEnd < s then ⟨[], 0, 0, 0⟩
    else
      match fetch s with
      | none => ⟨[], itemEnd - s + 1, 1, 0⟩
      | some [] => ⟨[], 0, 0, 1⟩
      | some (e :: es) =>
        let rest := fetchWithRetry fetch itemEnd (s + ((e :: es).length : Int))
        ⟨(s, e :: es) :: rest.batches, rest.dropped, rest.errors,
          rest.successes + 1⟩
  termination_by s => (itemEnd + 1 - s).toNat
  decreasing_by
  simp only [List.length_cons]
  omega

/-! ## C7 - byte pre-filter (`internal/certparser/parser.go`,
`containsFoldASCII`).  `uint32` arithmetic is carried on `Nat` with
explicit wrapping modulo `2^32`. -/

/-- Case folding of one byte over the A-Z range (`pb += 0x20`). -/
def foldByte (b : Nat) : Nat := if 65 ≤ b ∧ b ≤ 90 then b + 32 else b

/-- The FNV-style multiplier `primeRK`. -/
def primeRK : Nat := 16777619

/-- The `uint32` modulus. -/
def M32 : Nat := 4294967296

/-- Wrapping `uint32` multiplication. -/
def umul (a b : Nat) : Nat := (a * b) % M32

/-- Wrapping `uint32` addition. -/
def uadd (a b : Nat) : Nat := (a + b) % M32

/-- Wrapping `uint32` subtraction (`b` reduced first, as every Go value
is; total on `Nat` via `a + (2^32 - b)`). -/
def usub (a b : Nat) : Nat := (a + (M32 - b % M32)) % M32

/-- The joint first loop of `containsFoldASCII`: for `i < len(pattern)`
accumulate `pow *= primeRK`, `hashPat = hashPat*primeRK + fold p[i]`,
`hashData = hashData*primeRK + fold data[i]`, all in `uint32`. -/
def rkInit : List Nat → List Nat → Nat × Nat × Nat → Nat × Nat × Nat
  | p :: ps, d :: ds, (pow, hp, hd) =>
    rkInit ps ds
      (umul pow primeRK, uadd (umul hp primeRK) (foldByte p),
        uadd (umul hd primeRK) (foldByte d))
  | _, _, acc => acc

/-- The main loop of `containsFoldASCII` from position `i`, carried as
the remaining data `rem = data.drop i`; `patF` is the folded pattern.
At each position: on hash hit verify the folded window byte-for-byte,
then roll the hash one byte (`h = h*prime + fold new - pow * fold old`
in `uint32`) while another full window remains.  Only reached with a
nonempty pattern and `patF.length ≤ data.length`. -/
def rkLoop (patF : List Nat) (pow hashPat : Nat) : List Nat → Nat → Bool
  | [], _ => false
  | r :: rs, hashData =>
    if (r :: rs).length < patF.length then false
    else if hashData = hashPat ∧ ((r :: rs).take patF.length).map foldByte = patF
    then true
    else if rs.length < patF.length then false
    else
      rkLoop patF pow hashPat rs
        (usub (uadd (umul hashData primeRK)
            (foldByte ((r :: rs).getD patF.length 0)))
          (umul pow (foldByte r)))

/-- `containsFoldASCII`: empty pattern matches; a pattern longer than
the data cannot; otherwise the Rabin-Karp scan. -/
def containsFoldASCII (data pat : List Nat) : Bool :=
  if pat.length = 0 then true
  else if data.length < pat.length then false
  else
    let acc := rkInit pat data (1, 0, 0)
    rkLoop (pat.map foldByte) acc.1 acc.2.1 data acc.2.2

/-! ## C6 - parser filter gate (`internal/certparser/parser.go`,
`ParseEntry` / `resultMatchesDomain`).  The two standard-library calls,
base64 decoding and `x509.ParseCertificate`, are oracle parameters. -/

deriving instance DecidableEq for Except

/-- Bytes of an (ASCII) string, for the byte-level pre-filter. -/
def strBytes (s : String) : List Nat := s.data.map Char.toNat

/-- `strings.TrimPrefix(d, ".")`: drop one leading dot if present. -/
def trimDot (s : String) : String :=
  match s.data with
  | '.' :: rest => String.mk rest
  | _ => s

/-- The parser's state: the normalised domain filter list
(`domainFilterBytes` is derived from it on use). -/
structure Parser where
  domainFilter : List String
deriving DecidableEq, Repr

/-- `certparser.New`: filters are normalised by trimming one leading
dot and lowercasing. -/
def Parser.new (domains : List String) : Parser :=
  ⟨domains.map (fun d => lowerString (trimDot d))⟩

/-- `rawBytesMatchDomain`: the decoded leaf bytes match when any filter
occurs as a case-folded substring. -/
def rawBytesMatchDomain (p : Parser) (data : List Nat) : Bool :=
  p.domainFilter.any (fun d => containsFoldASCII data (strBytes d))

/-- `matchesDomain`: exact match, dot-suffix match
(`HasSuffix(domain, "."+filter)`), or wildcard base match
(`HasPrefix(domain, "*.")` with `base = domain[2:]`), carried on the
character sequences. -/
def matchesDomain (domain filter : String) : Bool :=
  decide (domain.data = filter.data) ||
  ('.' :: filter.data).isSuffixOf domain.data ||
  (['*', '.'].isPrefixOf domain.data &&
    (decide (domain.data.drop 2 = filter.data) ||
      ('.' :: filter.data).isSuffixOf (domain.data.drop 2)))

/-- `resultMatchesDomain`: some domain matches some filter, or some IP
string equals some filter. -/
def resultMatchesDomain (p : Parser) (result : CertResult) : Bool :=
  result.domains.any (fun d => p.domainFilter.any (fun f => matchesDomain d f)) ||
  result.ips.any (fun ip => p.domainFilter.any (fun f => decide (ip = f)))

/-- Big-endian byte concatenation (the 8-byte timestamp, 2-byte entry
type and 3-byte length reads). -/
def beBytes (l : List Nat) : Nat := l.foldl (fun a b => a * 256 + b) 0

/-- `parseX509Entry`: 3-byte length prefix, then the DER handed to the
x509 oracle; an oracle failure yields `(nil, nil)`. -/
def parseX509Entry (parseCert : List Nat → Option Certificate)
    (data : List Nat) (timestamp : Int) : Except String (Option CertInfo) :=
  if data.length < 3 then .error "x509 entry data too short"
  else
    let certLen := beBytes (data.take 3)
    let rest := data.drop 3
    if rest.length < certLen then .error "certificate data truncated"
    else
      match parseCert (rest.take certLen) with
      | none => .ok none
      | some cert => .ok (some ⟨cert, false, 0, timestamp⟩)

/-- `parsePrecertEntry`: skip the 32-byte issuer key hash, 3-byte TBS
length, then the TBS DER to the oracle. -/
def parsePrecertEntry (parseCert : List Nat → Option Certificate)
    (data : List Nat) (timestamp : Int) : Except String (Option CertInfo) :=
  if data.length < 35 then .error "precert entry data too short"
  else
    let d2 := data.drop 32
    let tbsLen := beBytes (d2.take 3)
    let rest := d2.drop 3
    if rest.length < tbsLen then .error "TBS certificate data truncated"
    else
      match parseCert (rest.take tbsLen) with
      | none => .ok none
      | some cert => .ok (some ⟨cert, true, 0, timestamp⟩)

/-- `parseMerkleTreeLeaf`: 12-byte header
`Version(1) | LeafType(1) | Timestamp(8) | EntryType(2)`, then the
entry-type dispatch. -/
def parseMerkleTreeLeaf (parseCert : List Nat → Option Certificate)
    (data : List Nat) : Except String (Option CertInfo) :=
  if data.length < 12 then .error "leaf data too short"
  else
    let timestamp := beBytes ((data.drop 2).take 8)
    if 9223372036854775807 < timestamp then .error "timestamp overflow"
    else
      let entryType := beBytes ((data.drop 10).take 2)
      if entryType = 0 then parseX509Entry parseCert (data.drop 12) (timestamp : Int)
      else if entryType = 1 then
        parsePrecertEntry parseCert (data.drop 12) (timestamp : Int)
      else .error "unknown entry type"

/-- `ParseEntry`: base64-decode the leaf, apply the byte pre-filter,
decode the Merkle leaf, build the result, and gate it on the
structured post-filter. -/
def parseEntry (decode : String → Option (List Nat))
    (parseCert : List Nat → Option Certificate) (p : Parser)
    (entry : RawEntry) (index : Int) (logURL : String) :
    Except String (Option CertResult) :=
  match decode entry.leafInput with
  | none => .error "decoding leaf input"
  | some leafBytes =>
    if p.domainFilter ≠ [] ∧ rawBytesMatchDomain p leafBytes = false then .ok none
    else
      match parseMerkleTreeLeaf parseCert leafBytes with
      | .error e => .error e
      | .ok none => .ok none
      | .ok (some ci) =>
        let result := buildResult { ci with index := index } logURL
        if p.domainFilter ≠ [] ∧ resultMatchesDomain p result = false then .ok none
        else .ok (some result)

end CtHulhu

namespace CtHulhu

/-! ## Theorems for C1 - C5 -/

/-- Claim C1: the spec states backoff is exponential, base 1 s, capped
at 30 s, for every configured retry count in 0..10.  The code has no
cap: with retries = 6 (within the allowed range) the sleeps before
attempts 1..6 are 1,2,4,8,16,32 seconds, and the sixth sleep already
exceeds 30 s, contradicting the cap the CHANGELOG also documents. -/
theorem backoff_exceeds_cap :
    6 ≤ 10 ∧ (doRequestWithRetry 6 (fun _ => false)).2 = [1, 2, 4, 8, 16, 32] ∧
      30 < backoffSeconds 6 := by decide

/-- Claim C2: the spec bounds the dedup table at 1000000 keys.  The
code inserts every fresh key unconditionally, so a single sequence of
WriteResult calls in domains mode drives the table past the bound. -/
theorem dedupTable_exceeds_bound :
    ∃ items : List String, 1000000 < ((writeUnique id "d:" items []).1).length := by
  refine ⟨(List.range 1000001).map padKey, ?_⟩
  rw [writeUnique_range_growth 1000001]
  omega

/-- Claim C3 (counterexample): the spec says the `emails` field is the
set of email SANs lowercased; `buildResult` copies `EmailAddresses`
verbatim, so an uppercase email SAN survives unlowered and its
lowercased form is absent. -/
theorem buildResult_emails_counterexample :
    (buildResult ⟨⟨"", [], [], ["Admin@Example.COM"], "", [], none, 0, 0⟩,
        false, 3, 0⟩ "https://log.example/").emails = ["Admin@Example.COM"] ∧
    lowerString "Admin@Example.COM" = "admin@example.com" ∧
    "admin@example.com" ∉
      (buildResult ⟨⟨"", [], [], ["Admin@Example.COM"], "", [], none, 0, 0⟩,
        false, 3, 0⟩ "https://log.example/").emails := by decide

/-- Claim C3 (amended): the `emails` field of every built result is the
certificate's email SAN list verbatim (no lowercasing). -/
theorem buildResult_emails_verbatim (info : CertInfo) (logURL : String) :
    (buildResult info logURL).emails = info.cert.emailAddresses := rfl

/-- Claim C4 (counterexample): the spec advances on
`last_index ≥ start`; the code tests `last_index > start` strictly, so
with `last_index = start = 5` the start stays 5 and the entry at index
5 is fetched again. -/
theorem resumeAdjust_equal_counterexample :
    resumeAdjust 5 (some ⟨"https://log.example/", 10, 5, 6, 0⟩) = 5 ∧
      (5 : Int) ≠ 5 + 1 := by decide

/-- Claim C4 (amended): the runner advances `start` to `last_index + 1`
exactly when the saved `last_index` is strictly greater than the
computed start; at `last_index ≤ start` (equality included) the start
is unchanged and the entry at `start` is fetched again. -/
theorem resumeAdjust_strict (start : Int) (p : ScrapeProgress) :
    (start < p.lastIndex → resumeAdjust start (some p) = p.lastIndex + 1) ∧
    (p.lastIndex ≤ start → resumeAdjust start (some p) = start) := by
  refine ⟨fun h => ?_, fun h => ?_⟩
  · simp only [resumeAdjust, if_pos (show p.lastIndex > start from h)]
  · simp only [resumeAdjust, if_neg (show ¬ p.lastIndex > start by omega)]

/-- Witness for `resumeAdjust_strict` at concrete inputs. -/
theorem resumeAdjust_strict_witness :
    resumeAdjust 5 (some ⟨"u", 10, 9, 0, 0⟩) = 9 + 1 ∧
      resumeAdjust 5 (some ⟨"u", 10, 5, 0, 0⟩) = 5 :=
  ⟨(resumeAdjust_strict 5 ⟨"u", 10, 9, 0, 0⟩).1 (by decide),
   (resumeAdjust_strict 5 ⟨"u", 10, 5, 0, 0⟩).2 (by decide)⟩

/-- Claim C5 (counterexample): with `from_end = false`, `start = 5`,
`count = 0` and `tree_size = 100` the code returns the window
`[5, 100)` while the spec's first rule yields `[5, min(5+0, 100)) =
[5, 5)`. -/
theorem calculateRange_count0_counterexample :
    calculateRange ⟨false, 5, 0⟩ 100 = (5, 100) ∧
    specRange ⟨false, 5, 0⟩ 100 = (5, 5) ∧
    calculateRange ⟨false, 5, 0⟩ 100 ≠ specRange ⟨false, 5, 0⟩ 100 := by decide

/-- Claim C5 (amended): for every tree size ≥ 0 and every valid option
combination (`start` either -1 or ≥ 0, `count ≥ 0`), `calculateRange`
returns exactly the spec's window once the spec's first rule is read
with `count = 0` meaning "to the end of the tree". -/
theorem calculateRange_matches_amended_spec (o : RangeOpts) (treeSize : Int)
    (_hts : 0 ≤ treeSize) (hstart : o.start = -1 ∨ 0 ≤ o.start)
    (hcount : 0 ≤ o.count) :
    calculateRange o treeSize = specRangeAmended o treeSize := by
  rcases o with ⟨fe, s, c⟩
  simp only at hstart hcount
  cases fe <;>
    simp only [calculateRange, specRangeAmended] <;>
    split_ifs <;>
    simp_all [Prod.ext_iff] <;>
    omega

/-- Witness for `calculateRange_matches_amended_spec`. -/
theorem calculateRange_matches_amended_spec_witness :
    calculateRange ⟨true, -1, 0⟩ 100000 = specRangeAmended ⟨true, -1, 0⟩ 100000 :=
  calculateRange_matches_amended_spec ⟨true, -1, 0⟩ 100000 (by decide)
    (Or.inl rfl) (by decide)

/-- Claim C8: the sanitiser is idempotent; its output is an
order-preserving selection of the input's bytes holding no C0 control
byte and no DEL; and for every input - strings containing escape
sequences included - the output is the section-4.4 sanitisation of the
input (`SanSpec`): each recognised CSI / OSC / DCS-SOS-PM-APC sequence
and each bare ESC is consumed whole, each C0 byte and DEL outside them
is dropped, and every remaining byte - exactly the bytes ≥ 0x20,
≠ 0x7f not consumed as part of a recognised escape sequence - is
emitted in order. -/
theorem sanitize_spec (s : List Nat) :
    sanitize (sanitize s) = sanitize s ∧
    (∀ b ∈ sanitize s, 32 ≤ b ∧ b ≠ 127) ∧
    List.Sublist (sanitize s) s ∧
    SanSpec s (sanitize s) :=
  ⟨sanitize_preserves_clean (sanitize s) (sanitize_clean_sublist s).1,
   (sanitize_clean_sublist s).1, (sanitize_clean_sublist s).2,
   sanSpec_sanitize s⟩

/-- Witness for `sanitize_spec` on the spec's own scenario 6 input,
`ESC ] 0 ; p w n BEL e v i l`: the OSC sequence is consumed whole and
`evil` survives. -/
theorem sanitize_spec_witness :
    SanSpec [27, 93, 48, 59, 112, 119, 110, 7, 101, 118, 105, 108]
      (sanitize [27, 93, 48, 59, 112, 119, 110, 7, 101, 118, 105, 108]) ∧
    sanitize [27, 93, 48, 59, 112, 119, 110, 7, 101, 118, 105, 108] =
      [101, 118, 105, 108] :=
  ⟨(sanitize_spec [27, 93, 48, 59, 112, 119, 110, 7, 101, 118, 105, 108]).2.2.2,
   by simp [sanitize, skipOSC, oscBody, oscTrail]⟩

/-- Claim C9: one step of the worker's per-item loop.  A successful
fetch of `k > 0` entries at position `s ≤ item.end` emits the batch
`(s, entries)` and continues the same item at `s + k`; the loop stops
as soon as the position passes `item.end`; a failed fetch at
`s ≤ item.end` adds exactly `item.end - s + 1` to the dropped counter,
records one error, emits nothing further and abandons the item. -/
theorem fetchWithRetry_step (fetch : Int → Option (List RawEntry))
    (itemEnd s : Int) :
    (∀ e es, s ≤ itemEnd → fetch s = some (e :: es) →
      fetchWithRetry fetch itemEnd s =
        ⟨(s, e :: es) ::
            (fetchWithRetry fetch itemEnd (s + ((e :: es).length : Int))).batches,
          (fetchWithRetry fetch itemEnd (s + ((e :: es).length : Int))).dropped,
          (fetchWithRetry fetch itemEnd (s + ((e :: es).length : Int))).errors,
          (fetchWithRetry fetch itemEnd (s + ((e :: es).length : Int))).successes + 1⟩) ∧
    (itemEnd < s → fetchWithRetry fetch itemEnd s = ⟨[], 0, 0, 0⟩) ∧
    (s ≤ itemEnd → fetch s = none →
      fetchWithRetry fetch itemEnd s = ⟨[], itemEnd - s + 1, 1, 0⟩) := by
  refine ⟨fun e es hle hf => ?_, fun hgt => ?_, fun hle hf => ?_⟩
  · rw [fetchWithRetry.eq_def]
    rw [dif_neg (by omega : ¬itemEnd < s), hf]
  · rw [fetchWithRetry.eq_def]
    rw [dif_pos hgt]
  · rw [fetchWithRetry.eq_def]
    rw [dif_neg (by omega : ¬itemEnd < s), hf]

/-- Concrete fetch oracle for the C9 witness: two entries at position
0, failure everywhere else. -/
def fetchOracleA : Int → Option (List RawEntry) :=
  fun p => if p = 0 then some [⟨"YQ==", ""⟩, ⟨"Yg==", ""⟩] else none

/-- Witness for `fetchWithRetry_step`: on the item `[0, 3]` the oracle
yields one two-entry batch at 0, then fails at 2 dropping entries 2..3,
and the loop refuses positions past the item end. -/
theorem fetchWithRetry_step_witness :
    fetchWithRetry fetchOracleA 3 0 =
      ⟨(0, [⟨"YQ==", ""⟩, ⟨"Yg==", ""⟩]) ::
          (fetchWithRetry fetchOracleA 3 2).batches,
        (fetchWithRetry fetchOracleA 3 2).dropped,
        (fetchWithRetry fetchOracleA 3 2).errors,
        (fetchWithRetry fetchOracleA 3 2).successes + 1⟩ ∧
    fetchWithRetry fetchOracleA 3 2 = ⟨[], 2, 1, 0⟩ ∧
    fetchWithRetry fetchOracleA 3 4 = ⟨[], 0, 0, 0⟩ :=
  ⟨(fetchWithRetry_step fetchOracleA 3 0).1 ⟨"YQ==", ""⟩ [⟨"Yg==", ""⟩]
      (by decide) rfl,
   by
     have h := (fetchWithRetry_step fetchOracleA 3 2).2.2 (by decide) rfl
     rw [h]
     rfl,
   (fetchWithRetry_step fetchOracleA 3 4).2.1 (by decide)⟩

/-- Claim C10: a successful fetch returning zero entries at a position
`s ≤ item.end` ends the item immediately: no batch is emitted, nothing
is added to the dropped counter, no error is recorded, the success
counter is incremented, and dropped plus emitted entries undercount
the `item.end - s + 1` entries of the remaining range. -/
theorem fetchWithRetry_empty_response (fetch : Int → Option (List RawEntry))
    (itemEnd s : Int) (hle : s ≤ itemEnd) (hf : fetch s = some []) :
    fetchWithRetry fetch itemEnd s = ⟨[], 0, 0, 1⟩ ∧
    (fetchWithRetry fetch itemEnd s).dropped +
        (((fetchWithRetry fetch itemEnd s).batches).map
          (fun b => (b.2.length : Int))).sum <
      itemEnd - s + 1 := by
  have h : fetchWithRetry fetch itemEnd s = ⟨[], 0, 0, 1⟩ := by
    rw [fetchWithRetry.eq_def]
    rw [dif_neg (by omega : ¬itemEnd < s), hf]
  refine ⟨h, ?_⟩
  rw [h]
  simp only [List.map_nil, List.sum_nil]
  omega

/-- Concrete fetch oracle for the C10 witness: always succeeds with an
empty entry list. -/
def fetchOracleB : Int → Option (List RawEntry) :=
  fun _ => some []

/-- Witness for `fetchWithRetry_empty_response` on the item `[1, 3]`. -/
theorem fetchWithRetry_empty_response_witness :
    fetchWithRetry fetchOracleB 3 1 = ⟨[], 0, 0, 1⟩ :=
  (fetchWithRetry_empty_response fetchOracleB 3 1 (by decide) rfl).1

/-! ## C7 helper development: the Rabin-Karp scan is the folded
substring search.  `polyH` is the exact (unwrapped) Horner value of a
byte list; all `uint32` states equal the exact value reduced mod
`2^32`. -/

/-- Exact Horner evaluation of a (already folded) byte list at
`primeRK`, from accumulator `h`. -/
def polyH (h : Nat) (l : List Nat) : Nat :=
  l.foldl (fun a b => a * primeRK + b) h

/-- The wrapped hash fold performed by `rkInit` on one side. -/
def hashFold (h : Nat) (l : List Nat) : Nat :=
  l.foldl (fun a b => uadd (umul a primeRK) (foldByte b)) h

theorem M32_pos : 0 < M32 := by decide

theorem polyH_split (l : List Nat) (h : Nat) :
    polyH h l = h * primeRK ^ l.length + polyH 0 l := by
  induction l generalizing h with
  | nil => simp [polyH]
  | cons b t ih =>
    have h1 : polyH h (b :: t) = polyH (h * primeRK + b) t := rfl
    have h2 : polyH 0 (b :: t) = polyH b t := by simp [polyH]
    rw [h1, h2, ih (h * primeRK + b), ih b]
    simp only [List.length_cons, pow_succ]
    ring

theorem polyH_mod_congr (x y : Nat) (l : List Nat)
    (h : x % M32 = y % M32) : polyH x l % M32 = polyH y l % M32 := by
  rw [polyH_split l x, polyH_split l y]
  exact ((Nat.ModEq.mul_right _ h).add_right _)

theorem hashFold_eq_polyH (l : List Nat) (h : Nat) (hh : h < M32) :
    hashFold h l = polyH h (l.map foldByte) % M32 := by
  induction l generalizing h with
  | nil => simp [hashFold, polyH, Nat.mod_eq_of_lt hh]
  | cons b t ih =>
    have e1 : hashFold h (b :: t) =
        hashFold (uadd (umul h primeRK) (foldByte b)) t := rfl
    have hlt : uadd (umul h primeRK) (foldByte b) < M32 :=
      Nat.mod_lt _ M32_pos
    rw [e1, ih _ hlt]
    have e2 : polyH h ((b :: t).map foldByte) =
        polyH (h * primeRK + foldByte b) (t.map foldByte) := rfl
    rw [e2]
    apply polyH_mod_congr
    simp only [uadd, umul, Nat.mod_mod_of_dvd, Nat.mod_mod]
    exact Nat.mod_add_mod (h * primeRK) M32 (foldByte b)

theorem rkInit_spec (ps : List Nat) (ds : List Nat) (pow hp hd : Nat)
    (hpow : pow < M32) (hlen : ps.length ≤ ds.length) :
    rkInit ps ds (pow, hp, hd) =
      ((pow * primeRK ^ ps.length) % M32, hashFold hp ps,
        hashFold hd (ds.take ps.length)) := by
  induction ps generalizing ds pow hp hd with
  | nil =>
    simp [rkInit, hashFold, Nat.mod_eq_of_lt hpow]
  | cons p ps ih =>
    cases ds with
    | nil => simp at hlen
    | cons d ds =>
      have hlt : umul pow primeRK < M32 := Nat.mod_lt _ M32_pos
      have hlen2 : ps.length ≤ ds.length := by simpa using hlen
      have e1 : rkInit (p :: ps) (d :: ds) (pow, hp, hd) =
          rkInit ps ds (umul pow primeRK,
            uadd (umul hp primeRK) (foldByte p),
            uadd (umul hd primeRK) (foldByte d)) := rfl
      rw [e1, ih ds (umul pow primeRK) (uadd (umul hp primeRK) (foldByte p))
        (uadd (umul hd primeRK) (foldByte d)) hlt hlen2]
      have e2 : umul pow primeRK * primeRK ^ ps.length % M32 =
          pow * primeRK ^ (p :: ps).length % M32 := by
        simp only [umul, List.length_cons]
        rw [Nat.mod_mul_mod]
        congr 1
        rw [pow_succ]
        ring
      have e3 : hashFold hp (p :: ps) =
          hashFold (uadd (umul hp primeRK) (foldByte p)) ps := rfl
      have e4 : hashFold hd ((d :: ds).take (p :: ps).length) =
          hashFold (uadd (umul hd primeRK) (foldByte d)) (ds.take ps.length) := rfl
      rw [← e3, ← e4, e2]

theorem poly_roll (a b : Nat) (t : List Nat) :
    polyH 0 (t ++ [b]) + a * primeRK ^ (t.length + 1) =
      polyH 0 (a :: t) * primeRK + b := by
  have h1 : polyH 0 (t ++ [b]) = polyH 0 t * primeRK + b := by
    simp [polyH, List.foldl_append]
  have h2 : polyH 0 (a :: t) = a * primeRK ^ t.length + polyH 0 t := by
    have : polyH 0 (a :: t) = polyH a t := by simp [polyH]
    rw [this, polyH_split t a]
  rw [h1, h2]
  ring

/-- Wrapped-subtraction congruence: subtracting a reduced `X` that is
congruent to `D` from a state congruent to `T + D` lands on `T`. -/
theorem wrap_sub_congr (h2 X T D : Nat) (hX : X < M32)
    (hc1 : h2 ≡ T + D [MOD M32]) (hc2 : X ≡ D [MOD M32]) :
    (h2 + (M32 - X)) % M32 = T % M32 := by
  have hcancel : h2 + (M32 - X) ≡ T [MOD M32] := by
    apply Nat.ModEq.add_right_cancel' X
    have heq : h2 + (M32 - X) + X = h2 + M32 := by omega
    rw [heq]
    calc h2 + M32 ≡ h2 [MOD M32] := Nat.add_mod_right h2 M32
    _ ≡ T + D [MOD M32] := hc1
    _ ≡ T + X [MOD M32] := hc2.symm.add_left T
  exact hcancel

/-- The rolling update of the scan: from the hash of the window
`aF :: tF` the wrapped `h*prime + bF - pow * aF` step produces the hash
of the next window `tF ++ [bF]`. -/
theorem roll_hash (aF bF : Nat) (tF : List Nat) (hashData : Nat)
    (hinv : hashData = polyH 0 (aF :: tF) % M32) :
    usub (uadd (umul hashData primeRK) bF)
        (umul (primeRK ^ (tF.length + 1) % M32) aF) =
      polyH 0 (tF ++ [bF]) % M32 := by
  have hroll := poly_roll aF bF tF
  have hXlt : umul (primeRK ^ (tF.length + 1) % M32) aF < M32 :=
    Nat.mod_lt _ M32_pos
  have e : usub (uadd (umul hashData primeRK) bF)
      (umul (primeRK ^ (tF.length + 1) % M32) aF) =
      (uadd (umul hashData primeRK) bF +
        (M32 - umul (primeRK ^ (tF.length + 1) % M32) aF)) % M32 := by
    simp only [usub, Nat.mod_eq_of_lt hXlt]
  rw [e]
  apply wrap_sub_congr _ _ _ (aF * primeRK ^ (tF.length + 1)) hXlt
  · calc uadd (umul hashData primeRK) bF
        ≡ hashData * primeRK + bF [MOD M32] := by
          show (hashData * primeRK % M32 + bF) % M32 % M32 =
            (hashData * primeRK + bF) % M32
          rw [Nat.mod_mod_of_dvd _ dvd_rfl, Nat.mod_add_mod]
    _ ≡ polyH 0 (aF :: tF) * primeRK + bF [MOD M32] :=
        Nat.ModEq.add_right bF (Nat.ModEq.mul_right primeRK
          (by rw [hinv]; exact Nat.mod_modEq _ _))
    _ = polyH 0 (tF ++ [bF]) + aF * primeRK ^ (tF.length + 1) := hroll.symm
  · show umul (primeRK ^ (tF.length + 1) % M32) aF % M32 =
      aF * primeRK ^ (tF.length + 1) % M32
    simp only [umul]
    rw [Nat.mod_mod_of_dvd _ dvd_rfl, Nat.mod_mul_mod, Nat.mul_comm]

/-- One index step of `List.take`, exposing the byte entering the
window. -/
theorem take_succ_getD (l : List Nat) (m : Nat) (h : m < l.length) :
    l.take (m + 1) = l.take m ++ [l.getD m 0] := by
  rw [List.take_succ]
  congr 1
  simp [List.getD, List.getElem?_eq_getElem h]

/-- The scan loop finds exactly the positions whose folded window
equals the folded pattern, given the rolling-hash invariant. -/
theorem rkLoop_iff (patF : List Nat) (m : Nat) (hm : patF.length = m + 1)
    (pow hashPat : Nat) (hpow : pow = primeRK ^ (m + 1) % M32)
    (hhp : hashPat = polyH 0 patF % M32) :
    ∀ (rem : List Nat) (hashData : Nat),
      hashData = polyH 0 ((rem.take (m + 1)).map foldByte) % M32 →
      (rkLoop patF pow hashPat rem hashData = true ↔
        ∃ i, i + (m + 1) ≤ rem.length ∧
          ((rem.drop i).take (m + 1)).map foldByte = patF) := by
  intro rem
  induction rem with
  | nil =>
    intro hashData hinv
    constructor
    · intro h
      exact absurd h (by simp [rkLoop])
    · rintro ⟨i, hle, -⟩
      exfalso
      simp at hle
  | cons r rs ih =>
    intro hashData hinv
    rw [show rkLoop patF pow hashPat (r :: rs) hashData =
        (if (r :: rs).length < patF.length then false
         else if hashData = hashPat ∧
             ((r :: rs).take patF.length).map foldByte = patF then true
         else if rs.length < patF.length then false
         else rkLoop patF pow hashPat rs
          (usub (uadd (umul hashData primeRK)
              (foldByte ((r :: rs).getD patF.length 0)))
            (umul pow (foldByte r)))) from rfl]
    split_ifs with h1 h2 h3
    · simp only [hm, List.length_cons] at h1
      constructor
      · intro h
        exact absurd h (by simp)
      · rintro ⟨i, hle, -⟩
        exfalso
        simp only [List.length_cons] at hle
        omega
    · simp only [hm, List.length_cons, Nat.not_lt] at h1
      constructor
      · intro _
        refine ⟨0, ?_, ?_⟩
        · simp only [List.drop_zero, List.length_cons]
          omega
        · simpa [hm] using h2.2
      · intro _
        rfl
    · have hwin0 : ((r :: rs).take (m + 1)).map foldByte ≠ patF := by
        intro hw
        exact h2 ⟨by rw [hinv, hhp, hw], by rw [hm]; exact hw⟩
      constructor
      · intro h
        exact absurd h (by simp)
      · rintro ⟨i, hle, hw⟩
        exfalso
        cases i with
        | zero => exact hwin0 (by simpa using hw)
        | succ j =>
          simp only [hm] at h3
          simp only [List.length_cons] at hle
          omega
    · have hwin0 : ((r :: rs).take (m + 1)).map foldByte ≠ patF := by
        intro hw
        exact h2 ⟨by rw [hinv, hhp, hw], by rw [hm]; exact hw⟩
      simp only [hm, Nat.not_lt] at h3
      have hmlt : m < rs.length := by omega
      have hstep : usub (uadd (umul hashData primeRK)
          (foldByte ((r :: rs).getD patF.length 0)))
          (umul pow (foldByte r)) =
          polyH 0 ((rs.take (m + 1)).map foldByte) % M32 := by
        have hgetD : (r :: rs).getD patF.length 0 = rs.getD m 0 := by
          rw [hm]
          rfl
        have htF : ((rs.take m).map foldByte).length = m := by
          simp only [List.length_map, List.length_take]
          omega
        have hinv2 : hashData =
            polyH 0 (foldByte r :: (rs.take m).map foldByte) % M32 := by
          simpa using hinv
        have hroll := roll_hash (foldByte r) (foldByte (rs.getD m 0))
          ((rs.take m).map foldByte) hashData hinv2
        rw [htF] at hroll
        rw [← hpow] at hroll
        rw [hgetD, hroll, take_succ_getD rs m hmlt]
        simp
      rw [hstep, ih _ rfl]
      constructor
      · rintro ⟨i, hle, hw⟩
        refine ⟨i + 1, ?_, ?_⟩
        · simp only [List.length_cons]
          omega
        · simpa using hw
      · rintro ⟨i, hle, hw⟩
        cases i with
        | zero => exact absurd (by simpa using hw) hwin0
        | succ j =>
          refine ⟨j, ?_, ?_⟩
          · simp only [List.length_cons] at hle
            omega
          · simpa using hw

/-- A window at some position is the same as being an infix. -/
theorem slice_iff_infix (P L : List Nat) :
    (∃ i, i + P.length ≤ L.length ∧ (L.drop i).take P.length = P) ↔
      List.IsInfix P L := by
  constructor
  · rintro ⟨i, hle, hwin⟩
    refine ⟨L.take i, (L.drop i).drop P.length, ?_⟩
    have hsplit : L.take i ++ ((L.drop i).take P.length ++
        (L.drop i).drop P.length) = L := by
      rw [List.take_append_drop, List.take_append_drop]
    rw [hwin] at hsplit
    simpa [List.append_assoc] using hsplit
  · rintro ⟨s, t, rfl⟩
    refine ⟨s.length, ?_, ?_⟩
    · simp only [List.length_append]
      omega
    · rw [List.append_assoc, List.drop_left, List.take_left]

/-- Claim C7: the Rabin-Karp `containsFoldASCII` is extensionally the
naive case-insensitive ASCII substring search: it returns true exactly
when the pattern, with `A..Z` folded to lowercase on both sides, occurs
as a contiguous substring of the data (the empty pattern always
matches). -/
theorem containsFoldASCII_iff (data pat : List Nat) :
    containsFoldASCII data pat = true ↔
      List.IsInfix (pat.map foldByte) (data.map foldByte) := by
  by_cases h0 : pat.length = 0
  · have : pat = [] := List.length_eq_zero.mp h0
    subst this
    simp [containsFoldASCII, List.nil_infix]
  · by_cases hlt : data.length < pat.length
    · have e : containsFoldASCII data pat = false := by
        simp [containsFoldASCII, h0, hlt]
      rw [e]
      constructor
      · intro h
        exact absurd h (by simp)
      · intro h
        exfalso
        have := h.length_le
        simp only [List.length_map] at this
        omega
    · obtain ⟨m, hm⟩ : ∃ m, pat.length = m + 1 :=
        ⟨pat.length - 1, by omega⟩
      have hlen : pat.length ≤ data.length := by omega
      have e : containsFoldASCII data pat =
          rkLoop (pat.map foldByte) ((1 * primeRK ^ pat.length) % M32)
            (hashFold 0 pat) (data) (hashFold 0 (data.take pat.length)) := by
        simp only [containsFoldASCII, h0, hlt, if_false]
        rw [rkInit_spec pat data 1 0 0 (by decide) hlen]
      rw [e, one_mul]
      have hmap : (pat.map foldByte).length = m + 1 := by
        simpa using hm
      have h1 := rkLoop_iff (pat.map foldByte) m hmap
        (primeRK ^ pat.length % M32) (hashFold 0 pat)
        (by rw [hm]) (by rw [hashFold_eq_polyH pat 0 M32_pos])
        data (hashFold 0 (data.take pat.length))
        (by rw [hashFold_eq_polyH _ 0 M32_pos, hm])
      rw [h1]
      have hbridge := slice_iff_infix (pat.map foldByte) (data.map foldByte)
      rw [← hbridge]
      constructor
      · rintro ⟨i, hle, hw⟩
        refine ⟨i, ?_, ?_⟩
        · simp only [List.length_map, hmap]
          omega
        · rw [hmap, ← List.map_drop, ← List.map_take]
          exact hw
      · rintro ⟨i, hle, hw⟩
        rw [hmap, ← List.map_drop, ← List.map_take] at hw
        refine ⟨i, ?_, hw⟩
        simp only [List.length_map, hmap] at hle
        omega

/-- Claim C6: with a nonempty filter list, a non-nil result from
`ParseEntry` always carries an identifier that passes the structured
post-filter: some domain matches some filter per the source's
`matchesDomain` (exact / dot-suffix / wildcard-base), or some IP string
equals some filter; a byte-level pre-filter hit alone never suffices. -/
theorem parseEntry_filter_sound (decode : String → Option (List Nat))
    (parseCert : List Nat → Option Certificate) (p : Parser)
    (entry : RawEntry) (index : Int) (logURL : String) (result : CertResult)
    (hne : p.domainFilter ≠ [])
    (hok : parseEntry decode parseCert p entry index logURL =
      Except.ok (some result)) :
    (∃ d ∈ result.domains, ∃ f ∈ p.domainFilter, matchesDomain d f = true) ∨
    (∃ ip ∈ result.ips, ip ∈ p.domainFilter) := by
  unfold parseEntry at hok
  cases hdec : decode entry.leafInput with
  | none => rw [hdec] at hok; simp at hok
  | some leafBytes =>
    rw [hdec] at hok
    dsimp only at hok
    by_cases h1 : p.domainFilter ≠ [] ∧ rawBytesMatchDomain p leafBytes = false
    · rw [if_pos h1] at hok; simp at hok
    · rw [if_neg h1] at hok
      cases hml : parseMerkleTreeLeaf parseCert leafBytes with
      | error e => rw [hml] at hok; simp at hok
      | ok oci =>
        rw [hml] at hok
        cases oci with
        | none => simp at hok
        | some ci =>
          dsimp only at hok
          by_cases h2 : p.domainFilter ≠ [] ∧
              resultMatchesDomain p (buildResult { ci with index := index } logURL)
                = false
          · rw [if_pos h2] at hok; simp at hok
          · rw [if_neg h2] at hok
            simp only [Except.ok.injEq, Option.some.injEq] at hok
            have hmatch : resultMatchesDomain p result = true := by
              rw [← hok]
              by_contra hfalse
              exact h2 ⟨hne, by simpa using hfalse⟩
            simp only [resultMatchesDomain, Bool.or_eq_true, List.any_eq_true,
              decide_eq_true_eq] at hmatch
            rcases hmatch with hd | hip
            · obtain ⟨d, hd1, f, hf1, hf2⟩ := hd
              exact Or.inl ⟨d, hd1, f, hf1, hf2⟩
            · obtain ⟨ip, hip1, f, hf1, hf2⟩ := hip
              exact Or.inr ⟨ip, hip1, hf2 ▸ hf1⟩

/-- A concrete certificate for the C6 witness. -/
def demoCert : Certificate :=
  ⟨"example.com", ["example.com"], [], [], "CA", [], none, 0, 0⟩

/-- A concrete decoded Merkle leaf for the C6 witness: 12-byte header
(x509 entry, timestamp 0), 3-byte length 11, then the ASCII bytes of
`example.com` standing for the DER. -/
def demoLeaf : List Nat :=
  [0, 0, 0, 0, 0, 0, 0, 0, 0, 0, 0, 0] ++ [0, 0, 11] ++ strBytes "example.com"

/-- Witness for `parseEntry_filter_sound`: a full concrete run through
pre-filter, leaf decode and post-filter. -/
theorem parseEntry_filter_sound_witness :
    (∃ d ∈ (buildResult ⟨demoCert, false, 7, 0⟩ "https://log.example/").domains,
        ∃ f ∈ (Parser.new ["example.com"]).domainFilter,
          matchesDomain d f = true) ∨
    (∃ ip ∈ (buildResult ⟨demoCert, false, 7, 0⟩ "https://log.example/").ips,
        ip ∈ (Parser.new ["example.com"]).domainFilter) :=
  parseEntry_filter_sound (fun _ => some demoLeaf) (fun _ => some demoCert)
    (Parser.new ["example.com"]) ⟨"", ""⟩ 7 "https://log.example/"
    (buildResult ⟨demoCert, false, 7, 0⟩ "https://log.example/")
    (by decide) (by decide)

end CtHulhu
